import Mathlib

/-!
Shallow embedding of `src/solution.py` (budget decomposition).

Modelling choices:
* Python `float` arithmetic is idealised as exact rationals `ℚ`; the
  literal tolerance `1e-9` is the exact rational `1/1000000000`.
* A Python `Set[int]` is embedded as a `List ℕ` holding the set's elements
  in iteration order; `next(iter(s))` is the head of that list, membership
  is list membership.  Python guarantees a deterministic iteration order
  for a given set value, so every run of the source corresponds to some
  choice of these lists.
* The decomposition matrix `List[List[float]]` is a `List (List ℚ)`;
  the in-place mutation of the Python code becomes explicit state passing.
* Out-of-range subject indices inside a preference set would raise
  `IndexError` in Python (`subjects_interested_count[preferred_subject]`);
  the spec (section 6) makes in-range indices a precondition, so the
  embedding uses the total `List.set` / `List.getD` and theorems that need
  in-range indices carry them as hypotheses.
* `None` becomes `Option.none`, a successful matrix `Option.some`.
-/

namespace Q9

/-- Tolerance constant `1e-9` of the source, as an exact rational. -/
def tol : ℚ := 1 / 1000000000

/-- Sum of a row of the decomposition matrix (`sum(decomposition[i])`). -/
def rowSum (d : List (List ℚ)) (i : ℕ) : ℚ := (d.getD i []).sum

/-- Entry `decomposition[i][j]`, defaulting to `0` out of range. -/
def getEntry (d : List (List ℚ)) (i j : ℕ) : ℚ := (d.getD i []).getD j 0

/-- Sum of column `j` over all rows of the matrix. -/
def colSum (d : List (List ℚ)) (j : ℕ) : ℚ := (d.map (fun r => r.getD j 0)).sum

/-- Sum of every entry of the matrix. -/
def totalSum (d : List (List ℚ)) : ℚ := (d.map List.sum).sum

/-- The in-place update `decomposition[i][subject_index] += v` of the source. -/
def updateEntry (d : List (List ℚ)) (i j : ℕ) (v : ℚ) : List (List ℚ) :=
  d.set i ((d.getD i []).set j ((d.getD i []).getD j 0 + v))

/-- Source `calculate_total_budget_and_share`:
`total_budget = sum(budget)`, `share = total / n if n else 0`. -/
def calculate_total_budget_and_share (budget : List ℚ) (n : ℕ) : ℚ × ℚ :=
  let total_budget := budget.sum
  (total_budget, if n ≠ 0 then total_budget / (n : ℚ) else 0)

/-- Source `find_interested_citizens`:
`[i for i in range(n) if subject_index in preferences[i]]`. -/
def find_interested_citizens (preferences : List (List ℕ)) (subject_index : ℕ)
    (n : ℕ) : List ℕ :=
  (List.range n).filter (fun i => subject_index ∈ preferences.getD i [])

/-- The `for i in interested_citizens` loop of `allocate_budget_for_subject`:
visits citizens in list order, breaks as soon as the remaining subject
budget is `≤ 0`, otherwise adds
`min(share - sum(decomposition[i]), remaining)` to entry `(i, j)` and
decrements the remaining budget.  Returns the updated matrix together with
the final remaining budget. -/
def allocLoop (share : ℚ) (j : ℕ) :
    List ℕ → List (List ℚ) → ℚ → (List (List ℚ) × ℚ)
  | [], d, rem => (d, rem)
  | i :: rest, d, rem =>
    if rem ≤ 0 then (d, rem)
    else
      let max_possible_allocation := share - rowSum d i
      let possible_allocation := min max_possible_allocation rem
      allocLoop share j rest (updateEntry d i j possible_allocation)
        (rem - possible_allocation)

/-- Source `allocate_budget_for_subject`.  The Python function mutates
`decomposition` and returns a `bool`; here `none` stands for `False` and
`some d` for `True` together with the mutated matrix. -/
def allocate_budget_for_subject (budget : List ℚ) (preferences : List (List ℕ))
    (subject_index : ℕ) (share_per_citizen : ℚ) (decomposition : List (List ℚ)) :
    Option (List (List ℚ)) :=
  let subject_budget := budget.getD subject_index 0
  let interested_citizens :=
    find_interested_citizens preferences subject_index preferences.length
  if interested_citizens = [] ∧ 0 < subject_budget then none
  else
    let total_possible_share :=
      (interested_citizens.map
        (fun i => share_per_citizen - rowSum decomposition i)).sum
    if total_possible_share < subject_budget then none
    else
      some (allocLoop share_per_citizen subject_index interested_citizens
        decomposition subject_budget).1

/-- Source `verify_allocation`:
`all(abs(sum(allocation) - share) < 1e-9 for allocation in decomposition)`. -/
def verify_allocation (decomposition : List (List ℚ)) (share_per_citizen : ℚ) :
    Bool :=
  decomposition.all (fun allocation => decide (|allocation.sum - share_per_citizen| < tol))

/-- Number of occurrences of subject `j` over all citizens' preference sets,
the value `subjects_interested_count[j]` computed by `is_basic_case_func`. -/
def subject_count (preferences : List (List ℕ)) (j : ℕ) : ℕ :=
  (preferences.map (fun citizen_preferences => citizen_preferences.count j)).sum

/-- Source `is_basic_case_func`: every subject's occurrence count equals 1
and `sum(budget) >= len(preferences)`. -/
def is_basic_case_func (budget : List ℚ) (preferences : List (List ℕ)) : Bool :=
  let num_subjects := budget.length
  ((List.range num_subjects).all (fun j => subject_count preferences j == 1)) &&
    decide ((preferences.length : ℚ) ≤ budget.sum)

/-- Source `calc_decomposition_for_basic_case`: a zero matrix where row `i`
gets `budget[p]` at column `p`, `p` being `next(iter(preferences[i]))`, i.e.
the head of the iteration-order list (the call sites guarantee the list is
nonempty; the `headD 0` default is never exercised by `find_decomposition`). -/
def calc_decomposition_for_basic_case (budget : List ℚ)
    (preferences : List (List ℕ)) : List (List ℚ) :=
  preferences.map (fun citizen_preferences =>
    let preferred_subject := citizen_preferences.headD 0
    (List.replicate budget.length (0 : ℚ)).set preferred_subject
      (budget.getD preferred_subject 0))

/-- Source `check_if_no_pref_then_return_None`:
`any(len(pref) == 0 for pref in preferences)`. -/
def check_if_no_pref_then_return_None (preferences : List (List ℕ)) : Bool :=
  preferences.any (fun pref => pref.length == 0)

/-- The `for j in range(len(budget))` loop of `find_decomposition`:
runs `allocate_budget_for_subject` for each subject in list order and
aborts with `none` at the first failure. -/
def allocate_all (budget : List ℚ) (preferences : List (List ℕ)) (share : ℚ) :
    List ℕ → List (List ℚ) → Option (List (List ℚ))
  | [], d => some d
  | j :: rest, d =>
    match allocate_budget_for_subject budget preferences j share d with
    | none => none
    | some d1 => allocate_all budget preferences share rest d1

/-- Source `find_decomposition`. -/
def find_decomposition (budget : List ℚ) (preferences : List (List ℕ)) :
    Option (List (List ℚ)) :=
  if check_if_no_pref_then_return_None preferences then none
  else if is_basic_case_func budget preferences then
    some (calc_decomposition_for_basic_case budget preferences)
  else
    let n := preferences.length
    let share_per_citizen := (calculate_total_budget_and_share budget n).2
    let decomposition :=
      List.replicate n (List.replicate budget.length (0 : ℚ))
    match allocate_all budget preferences share_per_citizen
        (List.range budget.length) decomposition with
    | none => none
    | some d =>
      if verify_allocation d share_per_citizen then some d else none

/-- Well-formedness of a decomposition matrix: `n` rows, each of length `s`. -/
def WF (d : List (List ℚ)) (n s : ℕ) : Prop :=
  d.length = n ∧ ∀ k < n, (d.getD k []).length = s

/-! ### Definitions modelled from the spec's words (for the refinement claim
about the general-path allocator).  These follow spec section 4.4 / the
claim text, to be compared with the source embedding above. -/

/-- Modelled from the spec: "Allocate greedily in ascending citizen-index
order: for each interested citizen, allocate min(remaining capacity,
remaining subject budget) to decomposition[i][j], decrement the subject's
remaining budget accordingly, stop early once the subject's budget reaches
zero" (remaining capacity of citizen `i` being `share` minus the current
sum of row `i`). -/
def greedySpecLoop (share : ℚ) (j : ℕ) :
    List ℕ → List (List ℚ) → ℚ → List (List ℚ)
  | [], d, _ => d
  | i :: rest, d, rem =>
    if rem ≤ 0 then d
    else
      let capacity := share - rowSum d i
      let alloc := min capacity rem
      greedySpecLoop share j rest (updateEntry d i j alloc) (rem - alloc)

/-- Modelled from the spec: for subject `j`, "Compute, for each interested
citizen i, remaining capacity = share − (sum of decomposition[i] so far).
Sum these capacities; if the sum is strictly less than budget[j] ... fail",
otherwise run the greedy allocation loop over the interested citizens in
ascending citizen-index order. -/
def allocateSpec (budget : List ℚ) (preferences : List (List ℕ)) (j : ℕ)
    (share : ℚ) (d : List (List ℚ)) : Option (List (List ℚ)) :=
  let interested := find_interested_citizens preferences j preferences.length
  if (interested.map (fun i => share - rowSum d i)).sum < budget.getD j 0 then
    none
  else some (greedySpecLoop share j interested d (budget.getD j 0))

/-- Modelled from the spec: subjects are processed one after the other and a
per-subject failure makes "the whole run fail". -/
def allocateAllSpec (budget : List ℚ) (preferences : List (List ℕ))
    (share : ℚ) : List ℕ → List (List ℚ) → Option (List (List ℚ))
  | [], d => some d
  | j :: rest, d =>
    match allocateSpec budget preferences j share d with
    | none => none
    | some d1 => allocateAllSpec budget preferences share rest d1

/-- Modelled from the spec: the general (non-basic) path processes subjects
"in increasing subject-index order" (`List.range budget.length`) starting
from the zero-filled matrix, aborts the whole run on a per-subject failure,
and finally applies the verifier of the source. -/
def generalPathSpec (budget : List ℚ) (preferences : List (List ℕ)) :
    Option (List (List ℚ)) :=
  let n := preferences.length
  let share := (calculate_total_budget_and_share budget n).2
  let d0 := List.replicate n (List.replicate budget.length (0 : ℚ))
  match allocateAllSpec budget preferences share (List.range budget.length) d0 with
  | none => none
  | some d => if verify_allocation d share then some d else none

/-! ### Generic list lemmas used by the development -/

theorem getD_set_self {α : Type} (l : List α) (x : α) (i : ℕ) (y : α)
    (h : i < l.length) : (l.set i x).getD i y = x := by
  induction l generalizing i with
  | nil => simp at h
  | cons a t ih =>
    cases i with
    | zero => simp
    | succ k =>
      simp only [List.set_cons_succ, List.getD_cons_succ]
      exact ih k (by simpa using h)

theorem getD_set_of_ne {α : Type} (l : List α) (x : α) (i k : ℕ) (y : α)
    (h : i ≠ k) : (l.set i x).getD k y = l.getD k y := by
  induction l generalizing i k with
  | nil => simp
  | cons a t ih =>
    cases i with
    | zero =>
      cases k with
      | zero => exact absurd rfl h
      | succ m => simp
    | succ n =>
      cases k with
      | zero => simp
      | succ m =>
        simp only [List.set_cons_succ, List.getD_cons_succ]
        exact ih n m (fun hnm => h (by simp [hnm]))

theorem sum_set (l : List ℚ) (x : ℚ) (i : ℕ) (h : i < l.length) :
    (l.set i x).sum = l.sum + x - l.getD i 0 := by
  induction l generalizing i with
  | nil => simp at h
  | cons a t ih =>
    cases i with
    | zero => simp [List.sum_cons]; ring
    | succ k =>
      simp only [List.set_cons_succ, List.sum_cons, List.getD_cons_succ]
      rw [ih k (by simpa using h)]
      ring

theorem getD_replicate_zero (n j : ℕ) :
    (List.replicate n (0 : ℚ)).getD j 0 = 0 := by
  induction n generalizing j with
  | zero => simp
  | succ m ih =>
    cases j with
    | zero => simp [List.replicate_succ]
    | succ k => simp [List.replicate_succ, ih k]

theorem getD_map_of_lt {α β : Type} (f : α → β) (l : List α) (i : ℕ)
    (x : α) (y : β) (h : i < l.length) : (l.map f).getD i y = f (l.getD i x) := by
  induction l generalizing i with
  | nil => simp at h
  | cons a t ih =>
    cases i with
    | zero => simp
    | succ k =>
      simp only [List.map_cons, List.getD_cons_succ]
      exact ih k (by simpa using h)

theorem mem_of_mem_set {α : Type} {l : List α} {x r : α} {i : ℕ}
    (h : r ∈ l.set i x) : r ∈ l ∨ r = x := by
  induction l generalizing i with
  | nil => simp at h
  | cons a t ih =>
    cases i with
    | zero =>
      rcases (by simpa using h : r = x ∨ r ∈ t) with h1 | h1
      · exact Or.inr h1
      · exact Or.inl (List.mem_cons_of_mem _ h1)
    | succ k =>
      rcases (by simpa using h : r = a ∨ r ∈ t.set k x) with h1 | h1
      · exact Or.inl (by simp [h1])
      · rcases ih h1 with h2 | h2
        · exact Or.inl (List.mem_cons_of_mem _ h2)
        · exact Or.inr h2

theorem getD_mem {α : Type} (l : List α) (i : ℕ) (y : α) (h : i < l.length) :
    l.getD i y ∈ l := by
  induction l generalizing i with
  | nil => simp at h
  | cons a t ih =>
    cases i with
    | zero => simp
    | succ k =>
      simp only [List.getD_cons_succ]
      exact List.mem_cons_of_mem _ (ih k (by simpa using h))

theorem sum_eq_sum_range_getD (l : List ℚ) :
    l.sum = ((List.range l.length).map (fun j => l.getD j 0)).sum := by
  induction l with
  | nil => simp
  | cons a t ih =>
    simp only [List.length_cons, List.range_succ_eq_map, List.map_cons,
      List.getD_cons_zero, List.sum_cons, List.map_map]
    have : (List.map (fun j => (a :: t).getD j 0) (List.map Nat.succ (List.range t.length)))
        = List.map (fun j => t.getD j 0) (List.range t.length) := by
      rw [List.map_map]
      exact List.map_congr_left (fun j _ => by simp [Function.comp])
    rw [List.map_map] at this
    rw [this, ← ih]

theorem sum_nonneg_all_zero (l : List ℚ) (hn : ∀ x ∈ l, 0 ≤ x)
    (hs : l.sum = 0) : ∀ x ∈ l, x = 0 := by
  induction l with
  | nil => simp
  | cons a t ih =>
    have ha : 0 ≤ a := hn a (by simp)
    have ht : 0 ≤ t.sum := List.sum_nonneg (fun x hx => hn x (List.mem_cons_of_mem _ hx))
    have hsum : a + t.sum = 0 := by simpa [List.sum_cons] using hs
    have ha0 : a = 0 := le_antisymm (by linarith) ha
    have ht0 : t.sum = 0 := by linarith
    intro x hx
    rcases List.mem_cons.mp hx with rfl | hx
    · exact ha0
    · exact ih (fun y hy => hn y (List.mem_cons_of_mem _ hy)) ht0 x hx

/-! ### Lemmas about single entry updates of the decomposition matrix -/

theorem updateEntry_of_length_le (d : List (List ℚ)) (i j : ℕ) (v : ℚ)
    (h : d.length ≤ i) : updateEntry d i j v = d :=
  List.set_eq_of_length_le h

theorem length_updateEntry (d : List (List ℚ)) (i j : ℕ) (v : ℚ) :
    (updateEntry d i j v).length = d.length := by
  simp [updateEntry]

theorem getD_updateEntry_self (d : List (List ℚ)) (i j : ℕ) (v : ℚ)
    (h : i < d.length) :
    (updateEntry d i j v).getD i [] =
      (d.getD i []).set j ((d.getD i []).getD j 0 + v) :=
  getD_set_self _ _ _ _ h

theorem getD_updateEntry_ne (d : List (List ℚ)) (i j : ℕ) (v : ℚ) (k : ℕ)
    (h : i ≠ k) : (updateEntry d i j v).getD k [] = d.getD k [] :=
  getD_set_of_ne _ _ _ _ _ h

theorem rowLen_updateEntry (d : List (List ℚ)) (i j : ℕ) (v : ℚ) (k : ℕ) :
    ((updateEntry d i j v).getD k []).length = (d.getD k []).length := by
  by_cases hik : i = k
  · subst hik
    by_cases h : i < d.length
    · rw [getD_updateEntry_self d i j v h, List.length_set]
    · rw [updateEntry_of_length_le d i j v (le_of_not_lt h)]
  · rw [getD_updateEntry_ne d i j v k hik]

theorem rowSum_updateEntry_self (d : List (List ℚ)) (i j : ℕ) (v : ℚ)
    (hi : i < d.length) (hj : j < (d.getD i []).length) :
    rowSum (updateEntry d i j v) i = rowSum d i + v := by
  unfold rowSum
  rw [getD_updateEntry_self d i j v hi, sum_set _ _ _ hj]
  ring

theorem rowSum_updateEntry_ne (d : List (List ℚ)) (i j : ℕ) (v : ℚ) (k : ℕ)
    (h : i ≠ k) : rowSum (updateEntry d i j v) k = rowSum d k := by
  unfold rowSum
  rw [getD_updateEntry_ne d i j v k h]

theorem getEntry_updateEntry_self (d : List (List ℚ)) (i j : ℕ) (v : ℚ)
    (hi : i < d.length) (hj : j < (d.getD i []).length) :
    getEntry (updateEntry d i j v) i j = getEntry d i j + v := by
  unfold getEntry
  rw [getD_updateEntry_self d i j v hi, getD_set_self _ _ _ _ hj]

theorem getEntry_updateEntry_ne (d : List (List ℚ)) (i j : ℕ) (v : ℚ)
    (k m : ℕ) (h : i ≠ k ∨ j ≠ m) :
    getEntry (updateEntry d i j v) k m = getEntry d k m := by
  unfold getEntry
  by_cases hik : i = k
  · subst hik
    have hjm : j ≠ m := h.resolve_left (fun hc => hc rfl)
    by_cases hlen : i < d.length
    · rw [getD_updateEntry_self d i j v hlen, getD_set_of_ne _ _ _ _ _ hjm]
    · rw [updateEntry_of_length_le d i j v (le_of_not_lt hlen)]
  · rw [getD_updateEntry_ne d i j v k hik]

theorem colSum_updateEntry_self (d : List (List ℚ)) (i j : ℕ) (v : ℚ)
    (hi : i < d.length) (hj : j < (d.getD i []).length) :
    colSum (updateEntry d i j v) j = colSum d j + v := by
  unfold colSum updateEntry
  rw [List.map_set, sum_set _ _ _ (by simpa using hi),
    getD_map_of_lt _ _ _ [] 0 hi, getD_set_self _ _ _ _ hj]
  ring

theorem colSum_updateEntry_ne (d : List (List ℚ)) (i j : ℕ) (v : ℚ) (m : ℕ)
    (h : j ≠ m) : colSum (updateEntry d i j v) m = colSum d m := by
  by_cases hlen : i < d.length
  · unfold colSum updateEntry
    rw [List.map_set, sum_set _ _ _ (by simpa using hlen),
      getD_map_of_lt _ _ _ [] 0 hlen, getD_set_of_ne _ _ _ _ _ h]
    ring
  · rw [updateEntry_of_length_le d i j v (le_of_not_lt hlen)]

theorem totalSum_updateEntry (d : List (List ℚ)) (i j : ℕ) (v : ℚ)
    (hi : i < d.length) (hj : j < (d.getD i []).length) :
    totalSum (updateEntry d i j v) = totalSum d + v := by
  unfold totalSum updateEntry
  rw [List.map_set, sum_set _ _ _ (by simpa using hi),
    getD_map_of_lt _ _ _ [] 0 hi, sum_set _ _ _ hj]
  ring

theorem totalSum_eq_sum_colSum (d : List (List ℚ)) (s : ℕ)
    (hrow : ∀ r ∈ d, r.length = s) :
    totalSum d = ((List.range s).map (fun j => colSum d j)).sum := by
  induction d with
  | nil => simp [totalSum, colSum]
  | cons r t ih =>
    have hr : r.length = s := hrow r (by simp)
    have ht := ih (fun x hx => hrow x (List.mem_cons_of_mem _ hx))
    have hsplit : ∀ j, colSum (r :: t) j = r.getD j 0 + colSum t j := by
      intro j; simp [colSum]
    calc totalSum (r :: t) = r.sum + totalSum t := by simp [totalSum]
      _ = ((List.range s).map (fun j => r.getD j 0)).sum
          + ((List.range s).map (fun j => colSum t j)).sum := by
            rw [← ht, sum_eq_sum_range_getD r, hr]
      _ = ((List.range s).map (fun j => colSum (r :: t) j)).sum := by
            rw [List.map_congr_left (fun j _ => hsplit j), List.sum_map_add]

/-! ### Lemmas about the greedy allocation loop -/

theorem allocLoop_zero (share : ℚ) (j : ℕ) (l : List ℕ) (d : List (List ℚ)) :
    allocLoop share j l d 0 = (d, 0) := by
  cases l with
  | nil => rfl
  | cons i rest => simp [allocLoop]

theorem allocLoop_length (share : ℚ) (j : ℕ) (l : List ℕ) (d : List (List ℚ))
    (rem : ℚ) : (allocLoop share j l d rem).1.length = d.length := by
  induction l generalizing d rem with
  | nil => rfl
  | cons i rest ih =>
    by_cases hr : rem ≤ 0
    · simp [allocLoop, hr]
    · simp only [allocLoop, hr, if_false]
      rw [ih, length_updateEntry]

theorem allocLoop_rowLen (share : ℚ) (j : ℕ) (l : List ℕ) (d : List (List ℚ))
    (rem : ℚ) (k : ℕ) :
    ((allocLoop share j l d rem).1.getD k []).length = (d.getD k []).length := by
  induction l generalizing d rem with
  | nil => rfl
  | cons i rest ih =>
    by_cases hr : rem ≤ 0
    · simp [allocLoop, hr]
    · simp only [allocLoop, hr, if_false]
      rw [ih, rowLen_updateEntry]

theorem allocLoop_rem_nonneg (share : ℚ) (j : ℕ) (l : List ℕ)
    (d : List (List ℚ)) (rem : ℚ) (h0 : 0 ≤ rem) :
    0 ≤ (allocLoop share j l d rem).2 := by
  induction l generalizing d rem with
  | nil => exact h0
  | cons i rest ih =>
    by_cases hr : rem ≤ 0
    · simpa [allocLoop, hr] using h0
    · simp only [allocLoop, hr, if_false]
      exact ih _ _ (by simp [min_le_right, sub_nonneg])

theorem allocLoop_rem_zero (share : ℚ) (j : ℕ) (l : List ℕ)
    (d : List (List ℚ)) (rem : ℚ) (hnd : l.Nodup)
    (hidx : ∀ i ∈ l, i < d.length ∧ j < (d.getD i []).length)
    (h0 : 0 ≤ rem)
    (hcap : rem ≤ (l.map (fun i => share - rowSum d i)).sum) :
    (allocLoop share j l d rem).2 = 0 := by
  induction l generalizing d rem with
  | nil =>
    have : rem = 0 := le_antisymm (by simpa using hcap) h0
    simpa [allocLoop] using this
  | cons i rest ih =>
    by_cases hr : rem ≤ 0
    · have : rem = 0 := le_antisymm hr h0
      simp [allocLoop, hr, this]
    · simp only [allocLoop, hr, if_false]
      have hi : i < d.length := (hidx i (by simp)).1
      have hj : j < (d.getD i []).length := (hidx i (by simp)).2
      have hnotmem : i ∉ rest := (List.nodup_cons.mp hnd).1
      have hndr : rest.Nodup := (List.nodup_cons.mp hnd).2
      set cap := share - rowSum d i with hcapdef
      by_cases hmin : rem ≤ cap
      · have halloc : min cap rem = rem := min_eq_right hmin
        rw [halloc]
        simp only [sub_self]
        rw [allocLoop_zero]
      · have halloc : min cap rem = cap := min_eq_left (le_of_not_le hmin)
        rw [halloc]
        set d1 := updateEntry d i j cap with hd1
        have hrows : ∀ k ∈ rest, rowSum d1 k = rowSum d k := by
          intro k hk
          exact rowSum_updateEntry_ne d i j cap k (fun hik => hnotmem (hik ▸ hk))
        apply ih d1 (rem - cap) hndr
        · intro k hk
          refine ⟨?_, ?_⟩
          · rw [hd1, length_updateEntry]; exact (hidx k (by simp [hk])).1
          · rw [hd1, rowLen_updateEntry]; exact (hidx k (by simp [hk])).2
        · have : cap < rem := lt_of_not_le hmin
          linarith
        · have hmapeq : rest.map (fun k => share - rowSum d1 k)
              = rest.map (fun k => share - rowSum d k) :=
            List.map_congr_left (fun k hk => by rw [hrows k hk])
          rw [hmapeq]
          have hsum : rem ≤ cap + (rest.map (fun k => share - rowSum d k)).sum := by
            simpa [List.sum_cons] using hcap
          linarith

theorem allocLoop_colSum (share : ℚ) (j : ℕ) (l : List ℕ)
    (d : List (List ℚ)) (rem : ℚ)
    (hidx : ∀ i ∈ l, i < d.length ∧ j < (d.getD i []).length) :
    colSum (allocLoop share j l d rem).1 j
      = colSum d j + (rem - (allocLoop share j l d rem).2) := by
  induction l generalizing d rem with
  | nil => simp [allocLoop]
  | cons i rest ih =>
    by_cases hr : rem ≤ 0
    · simp [allocLoop, hr]
    · simp only [allocLoop, hr, if_false]
      have hi : i < d.length := (hidx i (by simp)).1
      have hj : j < (d.getD i []).length := (hidx i (by simp)).2
      set alloc := min (share - rowSum d i) rem with halloc
      set d1 := updateEntry d i j alloc with hd1
      have hcol : colSum d1 j = colSum d j + alloc :=
        colSum_updateEntry_self d i j alloc hi hj
      have hrec := ih d1 (rem - alloc) (by
        intro k hk
        refine ⟨?_, ?_⟩
        · rw [hd1, length_updateEntry]; exact (hidx k (by simp [hk])).1
        · rw [hd1, rowLen_updateEntry]; exact (hidx k (by simp [hk])).2)
      rw [hrec, hcol]
      ring

theorem allocLoop_colSum_ne (share : ℚ) (j : ℕ) (l : List ℕ)
    (d : List (List ℚ)) (rem : ℚ) (m : ℕ) (hm : j ≠ m) :
    colSum (allocLoop share j l d rem).1 m = colSum d m := by
  induction l generalizing d rem with
  | nil => rfl
  | cons i rest ih =>
    by_cases hr : rem ≤ 0
    · simp [allocLoop, hr]
    · simp only [allocLoop, hr, if_false]
      rw [ih, colSum_updateEntry_ne _ _ _ _ _ hm]

theorem allocLoop_totalSum (share : ℚ) (j : ℕ) (l : List ℕ)
    (d : List (List ℚ)) (rem : ℚ)
    (hidx : ∀ i ∈ l, i < d.length ∧ j < (d.getD i []).length) :
    totalSum (allocLoop share j l d rem).1
      = totalSum d + (rem - (allocLoop share j l d rem).2) := by
  induction l generalizing d rem with
  | nil => simp [allocLoop]
  | cons i rest ih =>
    by_cases hr : rem ≤ 0
    · simp [allocLoop, hr]
    · simp only [allocLoop, hr, if_false]
      have hi : i < d.length := (hidx i (by simp)).1
      have hj : j < (d.getD i []).length := (hidx i (by simp)).2
      set alloc := min (share - rowSum d i) rem with halloc
      set d1 := updateEntry d i j alloc with hd1
      have htot : totalSum d1 = totalSum d + alloc :=
        totalSum_updateEntry d i j alloc hi hj
      have hrec := ih d1 (rem - alloc) (by
        intro k hk
        refine ⟨?_, ?_⟩
        · rw [hd1, length_updateEntry]; exact (hidx k (by simp [hk])).1
        · rw [hd1, rowLen_updateEntry]; exact (hidx k (by simp [hk])).2)
      rw [hrec, htot]
      ring

theorem allocLoop_nonneg (share : ℚ) (j : ℕ) (l : List ℕ)
    (d : List (List ℚ)) (rem : ℚ)
    (h0 : 0 ≤ rem)
    (hent : ∀ r ∈ d, ∀ x ∈ r, 0 ≤ x)
    (hrow : ∀ k, rowSum d k ≤ share)
    (hidx : ∀ i ∈ l, i < d.length ∧ j < (d.getD i []).length) :
    (∀ r ∈ (allocLoop share j l d rem).1, ∀ x ∈ r, 0 ≤ x) ∧
      (∀ k, rowSum (allocLoop share j l d rem).1 k ≤ share) := by
  induction l generalizing d rem with
  | nil => exact ⟨hent, hrow⟩
  | cons i rest ih =>
    by_cases hr : rem ≤ 0
    · simp only [allocLoop, hr, if_true]
      exact ⟨hent, hrow⟩
    · simp only [allocLoop, hr, if_false]
      have hi : i < d.length := (hidx i (by simp)).1
      have hj : j < (d.getD i []).length := (hidx i (by simp)).2
      have hcap : 0 ≤ share - rowSum d i := by
        have := hrow i; linarith
      set alloc := min (share - rowSum d i) rem with halloc
      have halloc_nonneg : 0 ≤ alloc := le_min hcap h0
      have halloc_le_cap : alloc ≤ share - rowSum d i := min_le_left _ _
      have halloc_le_rem : alloc ≤ rem := min_le_right _ _
      set d1 := updateEntry d i j alloc with hd1
      have hent1 : ∀ r ∈ d1, ∀ x ∈ r, 0 ≤ x := by
        intro r hrmem x hx
        rcases mem_of_mem_set hrmem with hrd | hrnew
        · exact hent r hrd x hx
        · subst hrnew
          rcases mem_of_mem_set hx with hxrow | hxnew
          · exact hent _ (getD_mem d i [] hi) x hxrow
          · subst hxnew
            have hold : 0 ≤ (d.getD i []).getD j 0 :=
              hent _ (getD_mem d i [] hi) _ (getD_mem _ j 0 hj)
            linarith
      have hrow1 : ∀ k, rowSum d1 k ≤ share := by
        intro k
        by_cases hik : i = k
        · subst hik
          rw [hd1, rowSum_updateEntry_self d i j alloc hi hj]
          linarith
        · rw [hd1, rowSum_updateEntry_ne d i j alloc k hik]
          exact hrow k
      exact ih d1 (rem - alloc) (by linarith) hent1 hrow1 (by
        intro k hk
        refine ⟨?_, ?_⟩
        · rw [hd1, length_updateEntry]; exact (hidx k (by simp [hk])).1
        · rw [hd1, rowLen_updateEntry]; exact (hidx k (by simp [hk])).2)

theorem allocLoop_pref (preferences : List (List ℕ)) (share : ℚ) (j : ℕ)
    (l : List ℕ) (d : List (List ℚ)) (rem : ℚ)
    (hP : ∀ k m, getEntry d k m ≠ 0 → m ∈ preferences.getD k [])
    (hl : ∀ i ∈ l, j ∈ preferences.getD i []) :
    ∀ k m, getEntry (allocLoop share j l d rem).1 k m ≠ 0 →
      m ∈ preferences.getD k [] := by
  induction l generalizing d rem with
  | nil => exact hP
  | cons i rest ih =>
    by_cases hr : rem ≤ 0
    · simpa [allocLoop, hr] using hP
    · simp only [allocLoop, hr, if_false]
      set alloc := min (share - rowSum d i) rem with halloc
      set d1 := updateEntry d i j alloc with hd1
      have hP1 : ∀ k m, getEntry d1 k m ≠ 0 → m ∈ preferences.getD k [] := by
        intro k m hkm
        by_cases hcase : i = k ∧ j = m
        · rcases hcase with ⟨rfl, rfl⟩
          exact hl i (by simp)
        · have hne : i ≠ k ∨ j ≠ m := by tauto
          rw [hd1, getEntry_updateEntry_ne d i j alloc k m hne] at hkm
          exact hP k m hkm
      exact ih d1 (rem - alloc) hP1 (fun k hk => hl k (by simp [hk]))

/-! ### Lemmas about `allocate_budget_for_subject` -/

theorem mem_find_interested_citizens (preferences : List (List ℕ)) (j n i : ℕ) :
    i ∈ find_interested_citizens preferences j n ↔
      i < n ∧ j ∈ preferences.getD i [] := by
  simp [find_interested_citizens, List.mem_filter, List.mem_range]

theorem nodup_find_interested_citizens (preferences : List (List ℕ)) (j n : ℕ) :
    (find_interested_citizens preferences j n).Nodup :=
  (List.nodup_range n).filter _

theorem allocate_some_inv (budget : List ℚ) (preferences : List (List ℕ))
    (j : ℕ) (share : ℚ) (d d' : List (List ℚ))
    (h : allocate_budget_for_subject budget preferences j share d = some d') :
    budget.getD j 0 ≤
      ((find_interested_citizens preferences j preferences.length).map
        (fun i => share - rowSum d i)).sum ∧
    d' = (allocLoop share j
      (find_interested_citizens preferences j preferences.length) d
      (budget.getD j 0)).1 := by
  simp only [allocate_budget_for_subject] at h
  split_ifs at h with h1 h2
  exact ⟨le_of_not_lt h2, (Option.some_inj.mp h).symm⟩

theorem allocate_some_WF (budget : List ℚ) (preferences : List (List ℕ))
    (j : ℕ) (share : ℚ) (d d' : List (List ℚ)) (n s : ℕ)
    (hWF : WF d n s)
    (h : allocate_budget_for_subject budget preferences j share d = some d') :
    WF d' n s := by
  obtain ⟨-, rfl⟩ := allocate_some_inv budget preferences j share d d' h
  exact ⟨by rw [allocLoop_length, hWF.1],
    fun k hk => by rw [allocLoop_rowLen]; exact hWF.2 k hk⟩

theorem allocate_hidx (preferences : List (List ℕ))
    (j : ℕ) (d : List (List ℚ)) (s : ℕ)
    (hWF : WF d preferences.length s) (hj : j < s) :
    ∀ i ∈ find_interested_citizens preferences j preferences.length,
      i < d.length ∧ j < (d.getD i []).length := by
  intro i hi
  have hin : i < preferences.length :=
    ((mem_find_interested_citizens preferences j preferences.length i).mp hi).1
  refine ⟨by rw [hWF.1]; exact hin, ?_⟩
  rw [hWF.2 i hin]
  exact hj

theorem allocate_some_colSum (budget : List ℚ) (preferences : List (List ℕ))
    (j : ℕ) (share : ℚ) (d d' : List (List ℚ)) (s : ℕ)
    (hWF : WF d preferences.length s) (hj : j < s)
    (hb : 0 ≤ budget.getD j 0)
    (h : allocate_budget_for_subject budget preferences j share d = some d') :
    colSum d' j = colSum d j + budget.getD j 0 := by
  obtain ⟨hcap, rfl⟩ := allocate_some_inv budget preferences j share d d' h
  have hidx := allocate_hidx preferences j d s hWF hj
  have hzero := allocLoop_rem_zero share j _ d (budget.getD j 0)
    (nodup_find_interested_citizens preferences j preferences.length) hidx hb hcap
  rw [allocLoop_colSum share j _ d (budget.getD j 0) hidx, hzero]
  ring

theorem allocate_some_colSum_ne (budget : List ℚ) (preferences : List (List ℕ))
    (j : ℕ) (share : ℚ) (d d' : List (List ℚ)) (m : ℕ) (hm : j ≠ m)
    (h : allocate_budget_for_subject budget preferences j share d = some d') :
    colSum d' m = colSum d m := by
  obtain ⟨-, rfl⟩ := allocate_some_inv budget preferences j share d d' h
  exact allocLoop_colSum_ne share j _ d _ m hm

theorem allocate_some_nonneg (budget : List ℚ) (preferences : List (List ℕ))
    (j : ℕ) (share : ℚ) (d d' : List (List ℚ)) (s : ℕ)
    (hWF : WF d preferences.length s) (hj : j < s)
    (hb : 0 ≤ budget.getD j 0)
    (hent : ∀ r ∈ d, ∀ x ∈ r, 0 ≤ x)
    (hrow : ∀ k, rowSum d k ≤ share)
    (h : allocate_budget_for_subject budget preferences j share d = some d') :
    (∀ r ∈ d', ∀ x ∈ r, 0 ≤ x) ∧ (∀ k, rowSum d' k ≤ share) := by
  obtain ⟨-, rfl⟩ := allocate_some_inv budget preferences j share d d' h
  exact allocLoop_nonneg share j _ d _ hb hent hrow
    (allocate_hidx preferences j d s hWF hj)

theorem allocate_some_pref (budget : List ℚ) (preferences : List (List ℕ))
    (j : ℕ) (share : ℚ) (d d' : List (List ℚ))
    (hP : ∀ k m, getEntry d k m ≠ 0 → m ∈ preferences.getD k [])
    (h : allocate_budget_for_subject budget preferences j share d = some d') :
    ∀ k m, getEntry d' k m ≠ 0 → m ∈ preferences.getD k [] := by
  obtain ⟨-, rfl⟩ := allocate_some_inv budget preferences j share d d' h
  exact allocLoop_pref preferences share j _ d _ hP
    (fun i hi =>
      ((mem_find_interested_citizens preferences j preferences.length i).mp hi).2)

theorem allocate_none_of_unendorsed (budget : List ℚ)
    (preferences : List (List ℕ)) (j : ℕ) (share : ℚ) (d : List (List ℚ))
    (hint : find_interested_citizens preferences j preferences.length = [])
    (hb : 0 < budget.getD j 0) :
    allocate_budget_for_subject budget preferences j share d = none := by
  unfold allocate_budget_for_subject
  rw [if_pos ⟨hint, hb⟩]

/-! ### Lemmas about `allocate_all` -/

theorem allocAll_some_WF (budget : List ℚ) (preferences : List (List ℕ))
    (share : ℚ) (subjects : List ℕ) (d d' : List (List ℚ)) (n s : ℕ)
    (hWF : WF d n s)
    (h : allocate_all budget preferences share subjects d = some d') :
    WF d' n s := by
  induction subjects generalizing d with
  | nil => cases h; exact hWF
  | cons t rest ih =>
    unfold allocate_all at h
    cases habs : allocate_budget_for_subject budget preferences t share d with
    | none => rw [habs] at h; cases h
    | some d1 =>
      rw [habs] at h
      exact ih d1 (allocate_some_WF budget preferences t share d d1 n s hWF habs) h

theorem allocAll_some_pref (budget : List ℚ) (preferences : List (List ℕ))
    (share : ℚ) (subjects : List ℕ) (d d' : List (List ℚ))
    (hP : ∀ k m, getEntry d k m ≠ 0 → m ∈ preferences.getD k [])
    (h : allocate_all budget preferences share subjects d = some d') :
    ∀ k m, getEntry d' k m ≠ 0 → m ∈ preferences.getD k [] := by
  induction subjects generalizing d with
  | nil => cases h; exact hP
  | cons t rest ih =>
    unfold allocate_all at h
    cases habs : allocate_budget_for_subject budget preferences t share d with
    | none => rw [habs] at h; cases h
    | some d1 =>
      rw [habs] at h
      exact ih d1 (allocate_some_pref budget preferences t share d d1 hP habs) h

theorem allocAll_some_nonneg (budget : List ℚ) (preferences : List (List ℕ))
    (share : ℚ) (subjects : List ℕ) (d d' : List (List ℚ)) (s : ℕ)
    (hWF : WF d preferences.length s)
    (hjs : ∀ j ∈ subjects, j < s)
    (hb : ∀ j ∈ subjects, 0 ≤ budget.getD j 0)
    (hent : ∀ r ∈ d, ∀ x ∈ r, 0 ≤ x)
    (hrow : ∀ k, rowSum d k ≤ share)
    (h : allocate_all budget preferences share subjects d = some d') :
    (∀ r ∈ d', ∀ x ∈ r, 0 ≤ x) ∧ (∀ k, rowSum d' k ≤ share) := by
  induction subjects generalizing d with
  | nil => cases h; exact ⟨hent, hrow⟩
  | cons t rest ih =>
    unfold allocate_all at h
    cases habs : allocate_budget_for_subject budget preferences t share d with
    | none => rw [habs] at h; cases h
    | some d1 =>
      rw [habs] at h
      have hWF1 := allocate_some_WF budget preferences t share d d1 _ _ hWF habs
      have hinv := allocate_some_nonneg budget preferences t share d d1 s hWF
        (hjs t (by simp)) (hb t (by simp)) hent hrow habs
      exact ih d1 hWF1 (fun k hk => hjs k (by simp [hk]))
        (fun k hk => hb k (by simp [hk])) hinv.1 hinv.2 h

theorem allocAll_some_colSum (budget : List ℚ) (preferences : List (List ℕ))
    (share : ℚ) (subjects : List ℕ) (d d' : List (List ℚ)) (s : ℕ)
    (hnd : subjects.Nodup)
    (hWF : WF d preferences.length s)
    (hjs : ∀ j ∈ subjects, j < s)
    (hb : ∀ j ∈ subjects, 0 ≤ budget.getD j 0)
    (h : allocate_all budget preferences share subjects d = some d') :
    (∀ j ∈ subjects, colSum d' j = colSum d j + budget.getD j 0) ∧
      (∀ m, m ∉ subjects → colSum d' m = colSum d m) := by
  induction subjects generalizing d with
  | nil => cases h; exact ⟨by simp, fun m _ => rfl⟩
  | cons t rest ih =>
    unfold allocate_all at h
    cases habs : allocate_budget_for_subject budget preferences t share d with
    | none => rw [habs] at h; cases h
    | some d1 =>
      rw [habs] at h
      have htnotmem : t ∉ rest := (List.nodup_cons.mp hnd).1
      have hWF1 := allocate_some_WF budget preferences t share d d1 _ _ hWF habs
      have hcol1 : colSum d1 t = colSum d t + budget.getD t 0 :=
        allocate_some_colSum budget preferences t share d d1 s hWF
          (hjs t (by simp)) (hb t (by simp)) habs
      have hrec := ih d1 ((List.nodup_cons.mp hnd).2) hWF1
        (fun k hk => hjs k (by simp [hk])) (fun k hk => hb k (by simp [hk])) h
      constructor
      · intro j hj
        rcases List.mem_cons.mp hj with rfl | hjr
        · rw [hrec.2 j htnotmem, hcol1]
        · have hjt : t ≠ j := fun hc => htnotmem (hc ▸ hjr)
          rw [hrec.1 j hjr,
            allocate_some_colSum_ne budget preferences t share d d1 j hjt habs]
      · intro m hm
        have hmt : t ≠ m := fun hc => hm (by simp [hc])
        rw [hrec.2 m (fun hc => hm (by simp [hc])),
          allocate_some_colSum_ne budget preferences t share d d1 m hmt habs]

theorem allocAll_none_of_unendorsed (budget : List ℚ)
    (preferences : List (List ℕ)) (share : ℚ) (subjects : List ℕ)
    (d : List (List ℚ)) (j : ℕ) (hj : j ∈ subjects)
    (hint : find_interested_citizens preferences j preferences.length = [])
    (hb : 0 < budget.getD j 0) :
    allocate_all budget preferences share subjects d = none := by
  induction subjects generalizing d with
  | nil => simp at hj
  | cons t rest ih =>
    unfold allocate_all
    rcases List.mem_cons.mp hj with rfl | hjr
    · rw [allocate_none_of_unendorsed budget preferences j share d hint hb]
    · cases habs : allocate_budget_for_subject budget preferences t share d with
      | none => rfl
      | some d1 => exact ih d1 hjr

/-! ### Facts about the zero matrix, the basic-case path and the
top-level control flow -/

theorem getD_replicate_of_lt {α : Type} (n k : ℕ) (x y : α) (h : k < n) :
    (List.replicate n x).getD k y = x := by
  induction n generalizing k with
  | zero => simp at h
  | succ m ih =>
    cases k with
    | zero => simp [List.replicate_succ]
    | succ t =>
      simp only [List.replicate_succ, List.getD_cons_succ]
      exact ih t (by omega)

theorem nonneg_getD (b : List ℚ) (j : ℕ) (hb : ∀ x ∈ b, 0 ≤ x) :
    0 ≤ b.getD j 0 := by
  by_cases h : j < b.length
  · exact hb _ (getD_mem b j 0 h)
  · rw [List.getD_eq_default _ _ (le_of_not_lt h)]

theorem zeroMatrix_WF (n s : ℕ) :
    WF (List.replicate n (List.replicate s (0 : ℚ))) n s := by
  refine ⟨List.length_replicate n _, fun k hk => ?_⟩
  rw [getD_replicate_of_lt n k _ [] hk, List.length_replicate]

theorem zeroMatrix_nonneg (n s : ℕ) :
    ∀ r ∈ List.replicate n (List.replicate s (0 : ℚ)), ∀ x ∈ r, 0 ≤ x := by
  intro r hr x hx
  rcases (List.mem_replicate.mp hr).2 with rfl
  rcases (List.mem_replicate.mp hx).2 with rfl
  exact le_refl 0

theorem zeroMatrix_rowSum (n s k : ℕ) :
    rowSum (List.replicate n (List.replicate s (0 : ℚ))) k = 0 := by
  unfold rowSum
  by_cases hk : k < n
  · rw [getD_replicate_of_lt n k _ [] hk, List.sum_replicate]
    simp
  · rw [List.getD_eq_default _ _ (by simpa using le_of_not_lt hk)]
    rfl

theorem zeroMatrix_colSum (n s j : ℕ) :
    colSum (List.replicate n (List.replicate s (0 : ℚ))) j = 0 := by
  unfold colSum
  rw [List.map_replicate, getD_replicate_zero, List.sum_replicate]
  simp

theorem zeroMatrix_getEntry (n s k m : ℕ) :
    getEntry (List.replicate n (List.replicate s (0 : ℚ))) k m = 0 := by
  unfold getEntry
  by_cases hk : k < n
  · rw [getD_replicate_of_lt n k _ [] hk, getD_replicate_zero]
  · have houter : (List.replicate n (List.replicate s (0 : ℚ))).getD k [] = [] :=
      List.getD_eq_default _ _ (by simpa using le_of_not_lt hk)
    rw [houter]
    rfl

theorem check_eq_false_iff (preferences : List (List ℕ)) :
    check_if_no_pref_then_return_None preferences = false ↔
      ∀ q ∈ preferences, q ≠ [] := by
  unfold check_if_no_pref_then_return_None
  rw [List.any_eq_false]
  constructor
  · intro h q hq
    have := h q hq
    simpa using this
  · intro h q hq
    simpa using h q hq

theorem headD_mem {α : Type} (q : List α) (y : α) (h : q ≠ []) :
    q.headD y ∈ q := by
  cases q with
  | nil => exact absurd rfl h
  | cons a t => simp

theorem find_decomposition_general_inv (budget : List ℚ)
    (preferences : List (List ℕ)) (d : List (List ℚ))
    (hc : check_if_no_pref_then_return_None preferences = false)
    (hb : is_basic_case_func budget preferences = false)
    (h : find_decomposition budget preferences = some d) :
    allocate_all budget preferences
        (calculate_total_budget_and_share budget preferences.length).2
        (List.range budget.length)
        (List.replicate preferences.length
          (List.replicate budget.length (0 : ℚ))) = some d ∧
      verify_allocation d
        (calculate_total_budget_and_share budget preferences.length).2 = true := by
  unfold find_decomposition at h
  rw [hc, hb] at h
  simp only [Bool.false_eq_true, if_false] at h
  cases haa : allocate_all budget preferences
      (calculate_total_budget_and_share budget preferences.length).2
      (List.range budget.length)
      (List.replicate preferences.length
        (List.replicate budget.length (0 : ℚ))) with
  | none => rw [haa] at h; cases h
  | some d1 =>
    rw [haa] at h
    dsimp only at h
    split_ifs at h with hv
    have hd : d1 = d := Option.some_inj.mp h
    exact ⟨by rw [hd], hd ▸ hv⟩

theorem find_decomposition_basic (budget : List ℚ)
    (preferences : List (List ℕ))
    (hc : check_if_no_pref_then_return_None preferences = false)
    (hb : is_basic_case_func budget preferences = true) :
    find_decomposition budget preferences =
      some (calc_decomposition_for_basic_case budget preferences) := by
  unfold find_decomposition
  rw [hc, hb]
  simp

theorem calc_basic_getD (budget : List ℚ) (preferences : List (List ℕ))
    (i : ℕ) (hi : i < preferences.length) :
    (calc_decomposition_for_basic_case budget preferences).getD i [] =
      (List.replicate budget.length (0 : ℚ)).set
        ((preferences.getD i []).headD 0)
        (budget.getD ((preferences.getD i []).headD 0) 0) := by
  unfold calc_decomposition_for_basic_case
  exact getD_map_of_lt _ _ _ [] [] hi

theorem calc_basic_length (budget : List ℚ) (preferences : List (List ℕ)) :
    (calc_decomposition_for_basic_case budget preferences).length =
      preferences.length := by
  unfold calc_decomposition_for_basic_case
  exact List.length_map _ _

theorem exists_getD_of_mem {α : Type} (l : List α) (r y : α) (h : r ∈ l) :
    ∃ k, k < l.length ∧ l.getD k y = r := by
  induction l with
  | nil => simp at h
  | cons a t ih =>
    rcases List.mem_cons.mp h with rfl | ht
    · exact ⟨0, by simp, rfl⟩
    · obtain ⟨k, hk, hget⟩ := ih ht
      exact ⟨k + 1, by simpa using hk, by simpa using hget⟩

theorem WF_rows (d : List (List ℚ)) (n s : ℕ) (hWF : WF d n s) :
    ∀ r ∈ d, r.length = s := by
  intro r hr
  obtain ⟨k, hk, hget⟩ := exists_getD_of_mem d r [] hr
  rw [← hget]
  exact hWF.2 k (by rw [← hWF.1]; exact hk)

theorem subject_count_eq_zero (preferences : List (List ℕ)) (j : ℕ)
    (h : ∀ q ∈ preferences, j ∉ q) : subject_count preferences j = 0 := by
  unfold subject_count
  apply List.sum_eq_zero
  intro x hx
  obtain ⟨q, hq, rfl⟩ := List.mem_map.mp hx
  exact List.count_eq_zero.mpr (h q hq)

theorem basic_false_of_count_ne_one (budget : List ℚ)
    (preferences : List (List ℕ)) (j : ℕ) (hj : j < budget.length)
    (h : subject_count preferences j ≠ 1) :
    is_basic_case_func budget preferences = false := by
  cases hbb : is_basic_case_func budget preferences
  · rfl
  · exfalso
    unfold is_basic_case_func at hbb
    rw [Bool.and_eq_true, List.all_eq_true] at hbb
    have := hbb.1 j (List.mem_range.mpr hj)
    exact h (by simpa using this)

theorem find_interested_eq_nil (preferences : List (List ℕ)) (j : ℕ)
    (h : ∀ q ∈ preferences, j ∉ q) :
    find_interested_citizens preferences j preferences.length = [] := by
  unfold find_interested_citizens
  rw [List.filter_eq_nil_iff]
  intro i hi
  have hmem : preferences.getD i [] ∈ preferences :=
    getD_mem preferences i [] (List.mem_range.mp hi)
  simpa using h _ hmem

theorem fd_unendorsed_none (budget : List ℚ) (preferences : List (List ℕ))
    (j : ℕ) (hj : j < budget.length) (hpos : 0 < budget.getD j 0)
    (hnot : ∀ q ∈ preferences, j ∉ q) :
    find_decomposition budget preferences = none := by
  cases hcc : check_if_no_pref_then_return_None preferences with
  | true => unfold find_decomposition; rw [hcc]; simp
  | false =>
    have hbb : is_basic_case_func budget preferences = false :=
      basic_false_of_count_ne_one budget preferences j hj
        (by rw [subject_count_eq_zero preferences j hnot]; omega)
    unfold find_decomposition
    rw [hcc, hbb]
    simp only [Bool.false_eq_true, if_false]
    rw [allocAll_none_of_unendorsed budget preferences _ _ _ j
      (List.mem_range.mpr hj) (find_interested_eq_nil preferences j hnot) hpos]

theorem allocAll_empty_prefs (budget : List ℚ) (share : ℚ) (subjects : List ℕ)
    (hz : ∀ j ∈ subjects, budget.getD j 0 = 0) :
    allocate_all budget [] share subjects [] = some [] := by
  induction subjects with
  | nil => rfl
  | cons t rest ih =>
    unfold allocate_all
    have habs : allocate_budget_for_subject budget [] t share [] = some [] := by
      unfold allocate_budget_for_subject
      have hint : find_interested_citizens [] t 0 = [] := rfl
      rw [hz t (by simp)]
      simp [hint, allocLoop]
    rw [habs]
    exact ih (fun k hk => hz k (by simp [hk]))

theorem share_nonneg (budget : List ℚ) (n : ℕ) (hpos : ∀ x ∈ budget, 0 ≤ x) :
    0 ≤ (calculate_total_budget_and_share budget n).2 := by
  unfold calculate_total_budget_and_share
  by_cases hn : n = 0
  · simp [hn]
  · simp only [hn, if_true, ne_eq, not_false_iff]
    have : (0 : ℚ) ≤ budget.sum := List.sum_nonneg hpos
    positivity

theorem check_false_of_fd_some (budget : List ℚ) (preferences : List (List ℕ))
    (d : List (List ℚ)) (h : find_decomposition budget preferences = some d) :
    check_if_no_pref_then_return_None preferences = false := by
  cases hcc : check_if_no_pref_then_return_None preferences with
  | false => rfl
  | true =>
    exfalso
    unfold find_decomposition at h
    rw [hcc] at h
    simp at h

theorem greedySpecLoop_eq_allocLoop (share : ℚ) (j : ℕ) (l : List ℕ)
    (d : List (List ℚ)) (rem : ℚ) :
    greedySpecLoop share j l d rem = (allocLoop share j l d rem).1 := by
  induction l generalizing d rem with
  | nil => rfl
  | cons i rest ih =>
    by_cases hr : rem ≤ 0
    · simp [greedySpecLoop, allocLoop, hr]
    · simp only [greedySpecLoop, allocLoop, hr, if_false]
      exact ih _ _

theorem allocate_eq_allocateSpec (budget : List ℚ) (preferences : List (List ℕ))
    (j : ℕ) (share : ℚ) (d : List (List ℚ)) :
    allocate_budget_for_subject budget preferences j share d =
      allocateSpec budget preferences j share d := by
  unfold allocate_budget_for_subject allocateSpec
  by_cases h1 : find_interested_citizens preferences j preferences.length = [] ∧
      0 < budget.getD j 0
  · rw [if_pos h1, if_pos (by rw [h1.1]; simpa using h1.2)]
  · rw [if_neg h1]
    dsimp only
    split_ifs with h2
    · rfl
    · rw [greedySpecLoop_eq_allocLoop]

theorem allocAll_eq_allocateAllSpec (budget : List ℚ)
    (preferences : List (List ℕ)) (share : ℚ) (subjects : List ℕ)
    (d : List (List ℚ)) :
    allocate_all budget preferences share subjects d =
      allocateAllSpec budget preferences share subjects d := by
  induction subjects generalizing d with
  | nil => rfl
  | cons t rest ih =>
    unfold allocate_all allocateAllSpec
    rw [← allocate_eq_allocateSpec]
    cases allocate_budget_for_subject budget preferences t share d with
    | none => rfl
    | some d1 => exact ih d1

theorem nonneg_entries_getEntry (d : List (List ℚ))
    (h : ∀ r ∈ d, ∀ x ∈ r, 0 ≤ x) : ∀ i j, 0 ≤ getEntry d i j := by
  intro i j
  unfold getEntry
  by_cases hi : i < d.length
  · by_cases hj : j < (d.getD i []).length
    · exact h _ (getD_mem d i [] hi) _ (getD_mem _ j 0 hj)
    · rw [List.getD_eq_default _ _ (le_of_not_lt hj)]
  · have houter : d.getD i [] = [] :=
      List.getD_eq_default _ _ (le_of_not_lt hi)
    rw [houter]
    simp

theorem sum_map_const_sub (s : ℚ) (l : List ℚ) :
    (l.map (fun x => s - x)).sum = l.length * s - l.sum := by
  induction l with
  | nil => simp
  | cons a t ih =>
    simp only [List.map_cons, List.sum_cons, List.length_cons, ih]
    push_cast
    ring

/-! ### The claims -/

/-- Claim C1, counterexample.  The claim states that every returned
decomposition has all row sums equal to `total budget / N` within `1e-9`.
On input `budget = [2, 0]`, `preferences = [{0}, {1}]` the basic-case path
returns `[[2, 0], [0, 0]]` whose row 0 sums to `2`, while
`total / N = 2 / 2 = 1`: off by `1`, far beyond the tolerance. -/
theorem claim1_counterexample :
    find_decomposition [2, 0] [[0], [1]] = some [[2, 0], [0, 0]] ∧
      ¬ |rowSum [[2, 0], [0, 0]] 0 - [(2 : ℚ), 0].sum / (2 : ℚ)| < tol := by
  constructor
  · norm_num [find_decomposition, check_if_no_pref_then_return_None,
      is_basic_case_func, subject_count, calc_decomposition_for_basic_case,
      calculate_total_budget_and_share, List.range_succ, List.replicate_succ,
      List.count_cons]
  · norm_num [rowSum, tol]

/-- Claim C1, amended: for every input on which `find_decomposition`
returns a matrix through the general (non-basic) path, every citizen's row
sums to `(sum of budget) / N` within `1e-9`. -/
theorem claim1_general_row_share (budget : List ℚ)
    (preferences : List (List ℕ)) (d : List (List ℚ))
    (hb : is_basic_case_func budget preferences = false)
    (h : find_decomposition budget preferences = some d) :
    ∀ i < d.length,
      |rowSum d i - budget.sum / (preferences.length : ℚ)| < tol := by
  have hc := check_false_of_fd_some budget preferences d h
  obtain ⟨haa, hv⟩ := find_decomposition_general_inv budget preferences d hc hb h
  intro i hi
  by_cases hn : preferences.length = 0
  · exfalso
    have hWF := allocAll_some_WF _ _ _ _ _ _ _ _
      (zeroMatrix_WF preferences.length budget.length) haa
    rw [hWF.1, hn] at hi
    omega
  · have hshare : (calculate_total_budget_and_share budget preferences.length).2
        = budget.sum / (preferences.length : ℚ) := by
      unfold calculate_total_budget_and_share
      simp [hn]
    unfold verify_allocation at hv
    rw [List.all_eq_true] at hv
    have hmem : d.getD i [] ∈ d := getD_mem d i [] hi
    have hrow := hv _ hmem
    rw [decide_eq_true_eq] at hrow
    rw [← hshare]
    exact hrow

/-- Claim C1 witness: on `budget = [5]`, `preferences = [{0}, {0}]` the
general path returns `[[5/2], [5/2]]` and both rows sum to `5/2` within
tolerance. -/
theorem claim1_general_row_share_witness :
    |rowSum [[(5 : ℚ)/2], [(5 : ℚ)/2]] 0 -
        [(5 : ℚ)].sum / ((([[0], [0]] : List (List ℕ)).length : ℕ) : ℚ)| < tol ∧
    |rowSum [[(5 : ℚ)/2], [(5 : ℚ)/2]] 1 -
        [(5 : ℚ)].sum / ((([[0], [0]] : List (List ℕ)).length : ℕ) : ℚ)| < tol := by
  have hkey := claim1_general_row_share [5] [[0], [0]] [[(5 : ℚ)/2], [(5 : ℚ)/2]]
    (by norm_num [is_basic_case_func, subject_count, List.range_succ,
      List.count_cons])
    (by norm_num [find_decomposition, check_if_no_pref_then_return_None,
      is_basic_case_func, subject_count, calculate_total_budget_and_share,
      allocate_all, allocate_budget_for_subject, find_interested_citizens,
      allocLoop, rowSum, updateEntry, verify_allocation, tol,
      List.range_succ, List.filter, List.replicate_succ, List.count_cons,
      List.cons_ne_nil, reduceCtorEq])
  exact ⟨hkey 0 (by simp), hkey 1 (by simp)⟩

/-- Claim C2, counterexample.  All of the claim's hypotheses hold on
`budget = [1, 1]`, `preferences = [{0, 1}]` (no empty set, each subject
occurs exactly once over all sets, total `2 ≥ N = 1`), yet the returned
matrix `[[1, 0]]` does not place subject 1's budget (`1`) on citizen 0, the
unique citizen that prefers subject 1: entry `(0, 1)` is `0`. -/
theorem claim2_counterexample :
    (∀ q ∈ ([[0, 1]] : List (List ℕ)), q ≠ []) ∧
    (∀ j < ([(1 : ℚ), 1] : List ℚ).length, subject_count [[0, 1]] j = 1) ∧
    ((([[0, 1]] : List (List ℕ)).length : ℚ) ≤ [(1 : ℚ), 1].sum) ∧
    find_decomposition [1, 1] [[0, 1]] = some [[1, 0]] ∧
    (1 : ℕ) ∈ ([0, 1] : List ℕ) ∧
    getEntry [[(1 : ℚ), 0]] 0 1 = 0 ∧
    [(1 : ℚ), 1].getD 1 0 = 1 := by
  refine ⟨by decide, by decide, by norm_num, ?_, by decide,
    by norm_num [getEntry], by norm_num⟩
  norm_num [find_decomposition, check_if_no_pref_then_return_None,
    is_basic_case_func, subject_count, calc_decomposition_for_basic_case,
    calculate_total_budget_and_share, List.range_succ, List.replicate_succ,
    List.count_cons]

/-- Claim C2, amended: if additionally every citizen's preference set is a
singleton (which the claim's occurrence-count hypothesis does not force)
and preference entries are valid subject indices (spec section 6
precondition), then `find_decomposition` returns a matrix that places each
subject's full budget on the citizen that prefers it and zero in every
other cell. -/
theorem claim2_basic_singleton (budget : List ℚ) (preferences : List (List ℕ))
    (hsing : ∀ q ∈ preferences, ∃ s, q = [s])
    (hcount : ∀ j < budget.length, subject_count preferences j = 1)
    (htot : (preferences.length : ℚ) ≤ budget.sum)
    (hvalid : ∀ q ∈ preferences, ∀ s ∈ q, s < budget.length) :
    ∃ d, find_decomposition budget preferences = some d ∧
      ∀ i < preferences.length, ∀ j < budget.length,
        (j ∈ preferences.getD i [] → getEntry d i j = budget.getD j 0) ∧
        (j ∉ preferences.getD i [] → getEntry d i j = 0) := by
  have hc : check_if_no_pref_then_return_None preferences = false :=
    (check_eq_false_iff preferences).mpr
      (fun q hq => by obtain ⟨s, rfl⟩ := hsing q hq; simp)
  have hbb : is_basic_case_func budget preferences = true := by
    unfold is_basic_case_func
    rw [Bool.and_eq_true]
    constructor
    · rw [List.all_eq_true]
      intro j hj
      simpa using hcount j (List.mem_range.mp hj)
    · exact decide_eq_true htot
  refine ⟨calc_decomposition_for_basic_case budget preferences,
    find_decomposition_basic budget preferences hc hbb, ?_⟩
  intro i hi j hj
  obtain ⟨s, hqs⟩ := hsing _ (getD_mem preferences i [] hi)
  have hrow := calc_basic_getD budget preferences i hi
  have hslt : s < budget.length :=
    hvalid _ (getD_mem preferences i [] hi) s (by rw [hqs]; simp)
  constructor
  · intro hjm
    rw [hqs] at hjm
    rcases List.mem_singleton.mp hjm with rfl
    unfold getEntry
    rw [hrow, hqs]
    simp only [List.headD_cons]
    rw [getD_set_self _ _ _ _ (by simpa using hslt)]
  · intro hjn
    have hne : s ≠ j := by
      intro hc2
      exact hjn (by rw [hqs, hc2]; simp)
    unfold getEntry
    rw [hrow, hqs]
    simp only [List.headD_cons]
    rw [getD_set_of_ne _ _ _ _ _ hne, getD_replicate_zero]

/-- Claim C2 witness: spec scenario 4, `budget = [0, 100]`,
`preferences = [{0}, {1}]`, a basic case producing `[[0, 0], [0, 100]]`. -/
theorem claim2_basic_singleton_witness :
    ∃ d, find_decomposition [0, 100] [[0], [1]] = some d ∧
      ∀ i < ([[0], [1]] : List (List ℕ)).length,
        ∀ j < ([(0 : ℚ), 100] : List ℚ).length,
        (j ∈ ([[0], [1]] : List (List ℕ)).getD i [] →
          getEntry d i j = [(0 : ℚ), 100].getD j 0) ∧
        (j ∉ ([[0], [1]] : List (List ℕ)).getD i [] → getEntry d i j = 0) :=
  claim2_basic_singleton [0, 100] [[0], [1]]
    (by
      intro q hq
      rcases List.mem_cons.mp hq with rfl | hq2
      · exact ⟨0, rfl⟩
      · rcases List.mem_cons.mp hq2 with rfl | hq3
        · exact ⟨1, rfl⟩
        · simp at hq3)
    (by decide) (by norm_num) (by decide)

/-- Claim C3, counterexample.  The claim states column conservation for
every returned matrix; on `budget = [1, 1]`, `preferences = [{0, 1}]` the
basic-case path returns `[[1, 0]]` whose column 1 sums to `0`, while
`budget[1] = 1` — off by `1`, far beyond the `1e-9` tolerance. -/
theorem claim3_counterexample :
    find_decomposition [1, 1] [[0, 1]] = some [[(1 : ℚ), 0]] ∧
      ¬ |colSum [[(1 : ℚ), 0]] 1 - [(1 : ℚ), 1].getD 1 0| < tol := by
  constructor
  · norm_num [find_decomposition, check_if_no_pref_then_return_None,
      is_basic_case_func, subject_count, calc_decomposition_for_basic_case,
      calculate_total_budget_and_share, List.range_succ, List.replicate_succ,
      List.count_cons]
  · norm_num [colSum, tol]

/-- Claim C3, amended: for every input with non-negative budget entries
(the spec's data-model precondition) on which `find_decomposition` returns
a matrix through the general (non-basic) path, every subject's column sums
to `budget[j]` within `1e-9` (in exact arithmetic, exactly). -/
theorem claim3_general_column_conservation (budget : List ℚ)
    (preferences : List (List ℕ)) (d : List (List ℚ))
    (hpos : ∀ x ∈ budget, 0 ≤ x)
    (hb : is_basic_case_func budget preferences = false)
    (h : find_decomposition budget preferences = some d) :
    ∀ j < budget.length, |colSum d j - budget.getD j 0| < tol := by
  have hc := check_false_of_fd_some budget preferences d h
  obtain ⟨haa, -⟩ := find_decomposition_general_inv budget preferences d hc hb h
  have hcol := allocAll_some_colSum budget preferences
    (calculate_total_budget_and_share budget preferences.length).2
    (List.range budget.length) _ d budget.length
    (List.nodup_range budget.length)
    (zeroMatrix_WF preferences.length budget.length)
    (fun j hj => List.mem_range.mp hj)
    (fun j _ => nonneg_getD budget j hpos) haa
  intro j hj
  rw [hcol.1 j (List.mem_range.mpr hj), zeroMatrix_colSum]
  simp only [zero_add, sub_self, abs_zero]
  unfold tol
  norm_num

/-- Claim C3 witness: on `budget = [5]`, `preferences = [{0}, {0}]` the
general path returns `[[5/2], [5/2]]`, whose single column sums to `5`. -/
theorem claim3_general_column_conservation_witness :
    |colSum [[(5 : ℚ)/2], [(5 : ℚ)/2]] 0 - [(5 : ℚ)].getD 0 0| < tol :=
  claim3_general_column_conservation [5] [[0], [0]]
    [[(5 : ℚ)/2], [(5 : ℚ)/2]] (by norm_num)
    (by norm_num [is_basic_case_func, subject_count, List.range_succ,
      List.count_cons])
    (by norm_num [find_decomposition, check_if_no_pref_then_return_None,
      is_basic_case_func, subject_count, calculate_total_budget_and_share,
      allocate_all, allocate_budget_for_subject, find_interested_citizens,
      allocLoop, rowSum, updateEntry, verify_allocation, tol,
      List.range_succ, List.filter, List.replicate_succ, List.count_cons,
      List.cons_ne_nil, reduceCtorEq])
    0 (by simp)

/-- Claim C4: on the general (non-basic) path, `find_decomposition`
behaves exactly as the spec's description of the allocator: subjects are
processed in increasing subject-index order; for each subject the run
fails when the summed remaining capacity of the interested citizens is
strictly below the subject's budget, and otherwise the greedy loop visits
interested citizens in ascending index order, allocating
`min(remaining capacity, remaining budget)` and stopping early at zero
(`generalPathSpec` is built from the spec's words). -/
theorem claim4_general_path_refinement (budget : List ℚ)
    (preferences : List (List ℕ))
    (hc : check_if_no_pref_then_return_None preferences = false)
    (hb : is_basic_case_func budget preferences = false) :
    find_decomposition budget preferences = generalPathSpec budget preferences := by
  unfold find_decomposition generalPathSpec
  rw [hc, hb]
  simp only [Bool.false_eq_true, if_false]
  rw [allocAll_eq_allocateAllSpec]

/-- Claim C4 witness: the refinement instantiated at the non-basic input
`budget = [5]`, `preferences = [{0}, {0}]`. -/
theorem claim4_general_path_refinement_witness :
    find_decomposition [5] [[0], [0]] = generalPathSpec [5] [[0], [0]] :=
  claim4_general_path_refinement [5] [[0], [0]] (by decide)
    (by norm_num [is_basic_case_func, subject_count, List.range_succ,
      List.count_cons])

/-- Claim C5: whenever `find_decomposition` returns a matrix, a strictly
positive entry `(i, j)` implies subject `j` belongs to citizen `i`'s
preference set (on both the basic and the general path). -/
theorem claim5_preference_respect (budget : List ℚ)
    (preferences : List (List ℕ)) (d : List (List ℚ))
    (h : find_decomposition budget preferences = some d) :
    ∀ i j, 0 < getEntry d i j → j ∈ preferences.getD i [] := by
  have hc := check_false_of_fd_some budget preferences d h
  cases hbb : is_basic_case_func budget preferences with
  | true =>
    have hd : d = calc_decomposition_for_basic_case budget preferences := by
      have := find_decomposition_basic budget preferences hc hbb
      rw [h] at this
      exact Option.some_inj.mp this
    subst hd
    intro i j hpos
    by_cases hi : i < preferences.length
    · have hrow := calc_basic_getD budget preferences i hi
      by_cases hjs : (preferences.getD i []).headD 0 = j
      · rw [← hjs]
        exact headD_mem _ 0 ((check_eq_false_iff preferences).mp hc _
          (getD_mem preferences i [] hi))
      · exfalso
        unfold getEntry at hpos
        rw [hrow, getD_set_of_ne _ _ _ _ _ hjs, getD_replicate_zero] at hpos
        exact lt_irrefl 0 hpos
    · exfalso
      unfold getEntry at hpos
      have hlen : (calc_decomposition_for_basic_case budget preferences).length ≤ i := by
        rw [calc_basic_length]
        exact le_of_not_lt hi
      rw [List.getD_eq_default _ _ hlen] at hpos
      simp at hpos
  | false =>
    obtain ⟨haa, -⟩ :=
      find_decomposition_general_inv budget preferences d hc hbb h
    have hpref := allocAll_some_pref budget preferences _ _ _ d
      (fun k m hkm => absurd (zeroMatrix_getEntry preferences.length
        budget.length k m) hkm) haa
    intro i j hpos
    exact hpref i j (ne_of_gt hpos)

/-- Claim C5 witness: on `budget = [100]`, `preferences = [{0}]` the result
is `[[100]]`; its entry `(0, 0)` is positive and subject 0 is indeed in
citizen 0's preference set. -/
theorem claim5_preference_respect_witness :
    (0 : ℕ) ∈ ([[0]] : List (List ℕ)).getD 0 [] :=
  claim5_preference_respect [100] [[0]] [[(100 : ℚ)]]
    (by norm_num [find_decomposition, check_if_no_pref_then_return_None,
      is_basic_case_func, subject_count, calc_decomposition_for_basic_case,
      calculate_total_budget_and_share, List.range_succ, List.replicate_succ])
    0 0 (by norm_num [getEntry])

/-- Claim C6: if at least one citizen's preference set is empty,
`find_decomposition` returns the no-solution sentinel (`none`), regardless
of the budget vector. -/
theorem claim6_empty_pref_no_solution (budget : List ℚ)
    (preferences : List (List ℕ)) (h : ∃ q ∈ preferences, q = []) :
    find_decomposition budget preferences = none := by
  have hc : check_if_no_pref_then_return_None preferences = true := by
    unfold check_if_no_pref_then_return_None
    rw [List.any_eq_true]
    obtain ⟨q, hq, rfl⟩ := h
    exact ⟨[], hq, by simp⟩
  unfold find_decomposition
  rw [hc]
  simp

/-- Claim C6 witness: spec scenario 3, `budget = [10]`,
`preferences = [{}]`. -/
theorem claim6_empty_pref_no_solution_witness :
    find_decomposition [10] [[]] = none :=
  claim6_empty_pref_no_solution [10] [[]] ⟨[], by simp, rfl⟩

/-- Claim C7: if some subject `j` has a strictly positive budget and no
citizen's preference set contains `j`, `find_decomposition` returns the
no-solution sentinel. -/
theorem claim7_unendorsed_subject_no_solution (budget : List ℚ)
    (preferences : List (List ℕ)) (j : ℕ) (hj : j < budget.length)
    (hpos : 0 < budget.getD j 0) (hnot : ∀ q ∈ preferences, j ∉ q) :
    find_decomposition budget preferences = none :=
  fd_unendorsed_none budget preferences j hj hpos hnot

/-- Claim C7 witness: spec scenario 5, `budget = [10, 10]`,
`preferences = [{0}, {0}]`, subject 1 unendorsed with positive budget. -/
theorem claim7_unendorsed_subject_no_solution_witness :
    find_decomposition [10, 10] [[0], [0]] = none :=
  claim7_unendorsed_subject_no_solution [10, 10] [[0], [0]] 1
    (by decide) (by norm_num) (by decide)

/-- Claim C8: with zero citizens the share is defined as `0` (no
division-by-zero fault), and `find_decomposition` on an empty preference
collection returns the sentinel whenever some budget entry is positive,
and the empty matrix when all budget entries are zero. -/
theorem claim8_zero_citizens (budget : List ℚ) :
    (calculate_total_budget_and_share budget 0).2 = 0 ∧
    (∀ j < budget.length, 0 < budget.getD j 0 →
      find_decomposition budget [] = none) ∧
    ((∀ x ∈ budget, x = 0) → find_decomposition budget [] = some []) := by
  refine ⟨by simp [calculate_total_budget_and_share], ?_, ?_⟩
  · intro j hj hpos
    exact fd_unendorsed_none budget [] j hj hpos (by simp)
  · intro hz
    by_cases hS : budget.length = 0
    · have hbe : budget = [] := List.length_eq_zero.mp hS
      subst hbe
      norm_num [find_decomposition, check_if_no_pref_then_return_None,
        is_basic_case_func, calc_decomposition_for_basic_case]
    · have hgz : ∀ j ∈ List.range budget.length, budget.getD j 0 = 0 :=
        fun j hjr => hz _ (getD_mem budget j 0 (List.mem_range.mp hjr))
      have hbb : is_basic_case_func budget [] = false :=
        basic_false_of_count_ne_one budget [] 0 (Nat.pos_of_ne_zero hS)
          (by rw [subject_count_eq_zero [] 0 (by simp)]; omega)
      unfold find_decomposition
      rw [hbb]
      simp only [check_if_no_pref_then_return_None, List.any_nil,
        Bool.false_eq_true, if_false, List.length_nil, List.replicate_zero]
      rw [allocAll_empty_prefs budget _ _ hgz]
      rfl

/-- Claim C8 witness: `find_decomposition [10] [] = none` (a positive
budget entry and no citizens) and `find_decomposition [0] [] = some []`
(all budget entries zero). -/
theorem claim8_zero_citizens_witness :
    (calculate_total_budget_and_share [(10 : ℚ)] 0).2 = 0 ∧
      find_decomposition [10] [] = none ∧
      find_decomposition [(0 : ℚ)] [] = some [] :=
  ⟨(claim8_zero_citizens [10]).1,
    (claim8_zero_citizens [10]).2.1 0 (by decide) (by norm_num),
    (claim8_zero_citizens [0]).2.2 (by intro x hx; simpa using hx)⟩

/-- Claim C9: for every input whose budget entries are all non-negative,
every entry of a matrix returned by `find_decomposition` is non-negative
(both on the basic path and on the general path, where row sums never
exceed the share so remaining capacities stay non-negative). -/
theorem claim9_nonneg_entries (budget : List ℚ) (preferences : List (List ℕ))
    (d : List (List ℚ)) (hpos : ∀ x ∈ budget, 0 ≤ x)
    (h : find_decomposition budget preferences = some d) :
    ∀ i j, 0 ≤ getEntry d i j := by
  apply nonneg_entries_getEntry
  have hc := check_false_of_fd_some budget preferences d h
  cases hbb : is_basic_case_func budget preferences with
  | true =>
    have hd : d = calc_decomposition_for_basic_case budget preferences := by
      have := find_decomposition_basic budget preferences hc hbb
      rw [h] at this
      exact Option.some_inj.mp this
    subst hd
    intro r hr x hx
    obtain ⟨k, hk, hget⟩ := exists_getD_of_mem _ r [] hr
    have hkp : k < preferences.length := by
      rw [← calc_basic_length budget preferences]
      exact hk
    rw [← hget, calc_basic_getD budget preferences k hkp] at hx
    rcases mem_of_mem_set hx with hx0 | hxv
    · rcases (List.mem_replicate.mp hx0).2 with rfl
      exact le_refl 0
    · subst hxv
      exact nonneg_getD budget _ hpos
  | false =>
    obtain ⟨haa, -⟩ :=
      find_decomposition_general_inv budget preferences d hc hbb h
    exact (allocAll_some_nonneg budget preferences
      (calculate_total_budget_and_share budget preferences.length).2
      (List.range budget.length)
      (List.replicate preferences.length
        (List.replicate budget.length (0 : ℚ))) d budget.length
      (zeroMatrix_WF preferences.length budget.length)
      (fun j hj => List.mem_range.mp hj)
      (fun j _ => nonneg_getD budget j hpos)
      (zeroMatrix_nonneg preferences.length budget.length)
      (fun k => by
        rw [zeroMatrix_rowSum]
        exact share_nonneg budget preferences.length hpos) haa).1

/-- Claim C9 witness: spec scenario 2, `budget = [400, 50, 50, 0]` with
five citizens; sample entries of the returned matrix are non-negative. -/
theorem claim9_nonneg_entries_witness :
    0 ≤ getEntry ([[(100 : ℚ), 0, 0, 0], [100, 0, 0, 0], [100, 0, 0, 0],
      [0, 50, 50, 0], [100, 0, 0, 0]] : List (List ℚ)) 3 1 ∧
    0 ≤ getEntry ([[(100 : ℚ), 0, 0, 0], [100, 0, 0, 0], [100, 0, 0, 0],
      [0, 50, 50, 0], [100, 0, 0, 0]] : List (List ℚ)) 0 0 := by
  have hkey := claim9_nonneg_entries [400, 50, 50, 0]
    [[0, 1], [0, 2], [0, 3], [1, 2], [0]]
    [[100, 0, 0, 0], [100, 0, 0, 0], [100, 0, 0, 0], [0, 50, 50, 0],
      [100, 0, 0, 0]]
    (by norm_num)
    (by norm_num [find_decomposition, check_if_no_pref_then_return_None,
      is_basic_case_func, subject_count, calculate_total_budget_and_share,
      allocate_all, allocate_budget_for_subject, find_interested_citizens,
      allocLoop, rowSum, updateEntry, verify_allocation, tol,
      List.range_succ, List.filter, List.replicate_succ, List.count_cons,
      List.cons_ne_nil, reduceCtorEq])
  exact ⟨hkey 3 1, hkey 0 0⟩

/-- Claim C10: with non-negative budgets and at least one citizen, on the
general path the verifier's failure branch is unreachable: if
`allocate_all` succeeds for every subject then each citizen's row sums to
exactly the share, `verify_allocation` returns `true`, and
`find_decomposition` returns the allocated matrix rather than the
sentinel. -/
theorem claim10_verifier_unreachable (budget : List ℚ)
    (preferences : List (List ℕ)) (d : List (List ℚ))
    (hpos : ∀ x ∈ budget, 0 ≤ x) (hn : 0 < preferences.length)
    (hc : check_if_no_pref_then_return_None preferences = false)
    (hb : is_basic_case_func budget preferences = false)
    (haa : allocate_all budget preferences
      (calculate_total_budget_and_share budget preferences.length).2
      (List.range budget.length)
      (List.replicate preferences.length
        (List.replicate budget.length (0 : ℚ))) = some d) :
    (∀ i < d.length, rowSum d i =
      (calculate_total_budget_and_share budget preferences.length).2) ∧
    verify_allocation d
      (calculate_total_budget_and_share budget preferences.length).2 = true ∧
    find_decomposition budget preferences = some d := by
  have hn0 : preferences.length ≠ 0 := Nat.pos_iff_ne_zero.mp hn
  set share := (calculate_total_budget_and_share budget preferences.length).2
    with hsh
  have hWF := allocAll_some_WF _ _ _ _ _ _ _ _
    (zeroMatrix_WF preferences.length budget.length) haa
  have hinv := allocAll_some_nonneg budget preferences share _ _ d budget.length
    (zeroMatrix_WF preferences.length budget.length)
    (fun j hj => List.mem_range.mp hj)
    (fun j _ => nonneg_getD budget j hpos)
    (zeroMatrix_nonneg preferences.length budget.length)
    (fun k => by
      rw [zeroMatrix_rowSum]
      exact share_nonneg budget preferences.length hpos) haa
  have hcol := allocAll_some_colSum budget preferences share _ _ d budget.length
    (List.nodup_range budget.length)
    (zeroMatrix_WF preferences.length budget.length)
    (fun j hj => List.mem_range.mp hj)
    (fun j _ => nonneg_getD budget j hpos) haa
  have hrows_len : ∀ r ∈ d, r.length = budget.length :=
    WF_rows d preferences.length budget.length hWF
  have htot : totalSum d = budget.sum := by
    rw [totalSum_eq_sum_colSum d budget.length hrows_len]
    rw [List.map_congr_left (fun j hj => by
      rw [hcol.1 j hj, zeroMatrix_colSum, zero_add])]
    exact (sum_eq_sum_range_getD budget).symm
  have hshare_eq : (preferences.length : ℚ) * share = budget.sum := by
    rw [hsh]
    unfold calculate_total_budget_and_share
    simp only [hn0, ne_eq, not_false_iff, if_true]
    have hcast : (preferences.length : ℚ) ≠ 0 := Nat.cast_ne_zero.mpr hn0
    field_simp
  have hsum_rows : (d.map List.sum).sum = budget.sum := htot
  have hlen_rows : (d.map List.sum).length = preferences.length := by
    rw [List.length_map, hWF.1]
  have hler : ∀ x ∈ d.map List.sum, x ≤ share := by
    intro x hx
    obtain ⟨r, hr, rfl⟩ := List.mem_map.mp hx
    obtain ⟨k, hk, hget⟩ := exists_getD_of_mem d r [] hr
    have hle := hinv.2 k
    rw [rowSum, hget] at hle
    exact hle
  have hs0 : ((d.map List.sum).map (fun x => share - x)).sum = 0 := by
    rw [sum_map_const_sub, hlen_rows, hsum_rows, hshare_eq]
    ring
  have hallz := sum_nonneg_all_zero _ (by
    intro y hy
    obtain ⟨x, hx, rfl⟩ := List.mem_map.mp hy
    have := hler x hx
    linarith) hs0
  have hrow_eq : ∀ r ∈ d, r.sum = share := by
    intro r hr
    have hmem : share - r.sum ∈ (d.map List.sum).map (fun x => share - x) :=
      List.mem_map_of_mem _ (List.mem_map_of_mem _ hr)
    have := hallz _ hmem
    linarith
  have hver : verify_allocation d share = true := by
    unfold verify_allocation
    rw [List.all_eq_true]
    intro r hr
    rw [decide_eq_true_eq, hrow_eq r hr]
    simp only [sub_self, abs_zero]
    unfold tol
    norm_num
  refine ⟨?_, hver, ?_⟩
  · intro i hi
    have := hrow_eq _ (getD_mem d i [] hi)
    rw [rowSum]
    exact this
  · unfold find_decomposition
    rw [hc, hb]
    simp only [Bool.false_eq_true, if_false]
    rw [haa]
    dsimp only
    rw [if_pos hver]

/-- Claim C10 witness: on `budget = [5]`, `preferences = [{0}, {0}]` the
general path allocates `[[5/2], [5/2]]`, both rows equal the share `5/2`,
the verifier accepts, and `find_decomposition` returns the matrix. -/
theorem claim10_verifier_unreachable_witness :
    (∀ i < ([[(5 : ℚ)/2], [(5 : ℚ)/2]] : List (List ℚ)).length,
      rowSum [[(5 : ℚ)/2], [(5 : ℚ)/2]] i =
        (calculate_total_budget_and_share [5]
          ([[0], [0]] : List (List ℕ)).length).2) ∧
    verify_allocation [[(5 : ℚ)/2], [(5 : ℚ)/2]]
      (calculate_total_budget_and_share [5]
        ([[0], [0]] : List (List ℕ)).length).2 = true ∧
    find_decomposition [5] [[0], [0]] = some [[(5 : ℚ)/2], [(5 : ℚ)/2]] :=
  claim10_verifier_unreachable [5] [[0], [0]] [[(5 : ℚ)/2], [(5 : ℚ)/2]]
    (by norm_num) (by decide) (by decide)
    (by norm_num [is_basic_case_func, subject_count, List.range_succ,
      List.count_cons])
    (by norm_num [allocate_all, allocate_budget_for_subject,
      find_interested_citizens, allocLoop, rowSum, updateEntry,
      calculate_total_budget_and_share, List.range_succ, List.filter,
      List.replicate_succ, List.cons_ne_nil, reduceCtorEq])

end Q9

